import Mathlib

/-!
Verification of the core of DREME (`dreme.py`, Discriminative Regular
Expression Motif Elicitation) against its natural-language specification.

Strings are modelled as `List Char` (Python byte strings of ASCII letters),
Python dictionaries as association lists or decidable function maps, machine
integers as `Nat`/`Int`, floats as `Rat`.  External collaborators
(`hypergeometric.log_getFETprob`, `math.log`) are abstract parameters.
-/

set_option maxHeartbeats 2000000
set_option maxRecDepth 10000

namespace Dreme

/-- Sequence / pattern strings, as in the Python source (byte strings). -/
abbrev Str := List Char

/-- `_dna_alphabet = 'ACGT'`. -/
def dnaAlphabet : Str := ['A', 'C', 'G', 'T']

/-- The 15-letter IUPAC DNA alphabet (the keys of `_ambig_to_dna`). -/
def iupacAlphabet : Str :=
  ['A', 'C', 'G', 'T', 'R', 'Y', 'K', 'M', 'S', 'W', 'B', 'D', 'H', 'V', 'N']

/-- Complement of one character, from the translation table in `get_rc`:
`string.maketrans("ACGTURYKMBVDHSWN", "TGCAAYRMKVBHDSWN")`.  Characters
outside the table are left unchanged, as `str.translate` does. -/
def complementChar (c : Char) : Char :=
  match c with
  | 'A' => 'T'
  | 'C' => 'G'
  | 'G' => 'C'
  | 'T' => 'A'
  | 'U' => 'A'
  | 'R' => 'Y'
  | 'Y' => 'R'
  | 'K' => 'M'
  | 'M' => 'K'
  | 'B' => 'V'
  | 'V' => 'B'
  | 'D' => 'H'
  | 'H' => 'D'
  | 'S' => 'S'
  | 'W' => 'W'
  | 'N' => 'N'
  | c => c

/-- `get_rc(re)`: reverse complement of a DNA RE
(translate through the complement table, then reverse). -/
def get_rc (re : Str) : Str := (re.map complementChar).reverse

/-- Python byte-string `<` (lexicographic on character codes,
a proper prefix is smaller). -/
def strLt : Str → Str → Bool
  | [], [] => false
  | [], _ :: _ => true
  | _ :: _, [] => false
  | a :: as, b :: bs =>
    if a < b then true
    else if b < a then false
    else strLt as bs

/-- Python `min(a, b)` on two strings: returns `b` exactly when `b < a`. -/
def pymin (a b : Str) : Str := if strLt b a then b else a

/-- The canonical form of a pattern: `min(word, get_rc(word))`, as computed at
`update_seqs_with_words` and everywhere an index key is formed. -/
def canonical (w : Str) : Str := pymin w (get_rc w)

/-- A string is over the IUPAC DNA alphabet. -/
def IsIupacStr (w : Str) : Prop := ∀ c ∈ w, c ∈ iupacAlphabet

instance (w : Str) : Decidable (IsIupacStr w) := by
  unfold IsIupacStr; infer_instance

theorem complement_mem_iupac :
    ∀ c ∈ iupacAlphabet, complementChar c ∈ iupacAlphabet := by decide

theorem complement_complement :
    ∀ c ∈ iupacAlphabet, complementChar (complementChar c) = c := by decide

theorem get_rc_isIupac {w : Str} (h : IsIupacStr w) : IsIupacStr (get_rc w) := by
  intro c hc
  unfold get_rc at hc
  rw [List.mem_reverse, List.mem_map] at hc
  obtain ⟨a, ha, rfl⟩ := hc
  exact complement_mem_iupac a (h a ha)

theorem get_rc_get_rc {w : Str} (h : IsIupacStr w) : get_rc (get_rc w) = w := by
  unfold get_rc
  rw [List.map_reverse, List.reverse_reverse, List.map_map]
  have : ∀ c ∈ w, (complementChar ∘ complementChar) c = c := by
    intro c hc; exact complement_complement c (h c hc)
  rw [List.map_congr_left this]
  exact List.map_id w

theorem strLt_asymm : ∀ a b : Str, strLt a b = true → strLt b a = false := by
  intro a
  induction a with
  | nil => intro b hb; cases b <;> simp_all [strLt]
  | cons x xs ih =>
    intro b hb
    cases b with
    | nil => simp [strLt] at hb
    | cons y ys =>
      simp only [strLt] at hb ⊢
      by_cases hxy : x < y
      · have hyx : ¬ y < x := lt_asymm hxy
        simp [hxy, hyx]
      · by_cases hyx : y < x
        · simp [hxy, hyx] at hb
        · simp [hxy, hyx] at hb ⊢
          exact ih ys hb

theorem strLt_conn : ∀ a b : Str, strLt a b = false → strLt b a = false → a = b := by
  intro a
  induction a with
  | nil => intro b h1 _; cases b <;> simp_all [strLt]
  | cons x xs ih =>
    intro b h1 h2
    cases b with
    | nil => simp [strLt] at h2
    | cons y ys =>
      simp only [strLt] at h1 h2
      by_cases hxy : x < y
      · simp [hxy] at h1
      · by_cases hyx : y < x
        · simp [hxy, hyx] at h2
        · simp [hxy, hyx] at h1 h2
          have hx : x = y := le_antisymm (le_of_not_lt hyx) (le_of_not_lt hxy)
          rw [hx, ih ys h1 h2]

theorem pymin_comm (a b : Str) : pymin a b = pymin b a := by
  unfold pymin
  by_cases hba : strLt b a
  · have hab : strLt a b = false := strLt_asymm b a hba
    simp [hba, hab]
  · by_cases hab : strLt a b
    · simp [hba, hab]
    · have : a = b := strLt_conn a b (by simpa using hab) (by simpa using hba)
      simp [this]

/-- C3: for every pattern `w` over the IUPAC DNA alphabet, the canonical form
(the lexicographically smaller of `w` and its reverse complement, as computed
by Python `min(word, get_rc(word))`) is the same whether computed from `w` or
from its reverse complement. -/
theorem canonical_get_rc (w : Str) (h : IsIupacStr w) :
    canonical w = canonical (get_rc w) := by
  unfold canonical
  rw [get_rc_get_rc h]
  exact (pymin_comm (get_rc w) w).symm

/-- Witness for `canonical_get_rc` at the concrete pattern `ACGR`. -/
theorem canonical_get_rc_witness :
    canonical ['A', 'C', 'G', 'R'] = canonical (get_rc ['A', 'C', 'G', 'R']) :=
  canonical_get_rc ['A', 'C', 'G', 'R'] (by decide)

/-! ### Matcher (`_ambig_to_dna`, `make_dna_re`) -/

/-- `_ambig_to_dna`: the character class (list of primary DNA letters) each
IUPAC letter expands to when an RE is compiled by `make_dna_re`.  Characters
outside the table would raise `KeyError` in the source; the model returns the
empty class (which matches nothing). -/
def ambigToDna (c : Char) : Str :=
  match c with
  | 'A' => ['A']
  | 'C' => ['C']
  | 'G' => ['G']
  | 'T' => ['T']
  | 'R' => ['A', 'G']
  | 'Y' => ['C', 'T']
  | 'K' => ['G', 'T']
  | 'M' => ['A', 'C']
  | 'S' => ['C', 'G']
  | 'W' => ['A', 'T']
  | 'B' => ['C', 'G', 'T']
  | 'D' => ['A', 'G', 'T']
  | 'H' => ['A', 'C', 'T']
  | 'V' => ['A', 'C', 'G']
  | 'N' => ['A', 'C', 'G', 'T']
  | _ => []

/-- The sequence of character classes a pattern compiles to
(one bracket expression per pattern letter in `make_dna_re`). -/
def compileClasses (re : Str) : List Str := re.map ambigToDna

/-- A window of text matches a concatenation of character classes:
same length, and each character is in its class. -/
def matchesClasses : List Str → Str → Bool
  | [], [] => true
  | k :: ks, c :: cs => k.contains c && matchesClasses ks cs
  | _, _ => false

/-- The matcher compiled by `make_dna_re(iupac_re, given_only)` applied to one
window of text: the alternation of the class-expansion of the pattern and
(unless `given_only`) of its reverse complement.  Both branches have the
pattern's length, so a match is a window of exactly that length. -/
def reMatchWindow (iupac_re : Str) (given_only : Bool) (win : Str) : Bool :=
  matchesClasses (compileClasses iupac_re) win ||
    (!given_only && matchesClasses (compileClasses (get_rc iupac_re)) win)

theorem ambigToDna_subset_dna :
    ∀ c ∈ iupacAlphabet, ∀ d ∈ ambigToDna c, d ∈ dnaAlphabet := by decide

theorem matchesClasses_chars {cls : List Str} :
    ∀ {win : Str}, matchesClasses cls win = true →
      (∀ k ∈ cls, ∀ d ∈ k, d ∈ dnaAlphabet) → ∀ c ∈ win, c ∈ dnaAlphabet := by
  induction cls with
  | nil => intro win hm _ c hc; cases win <;> simp_all [matchesClasses]
  | cons k ks ih =>
    intro win hm hcls c hc
    cases win with
    | nil => simp [matchesClasses] at hm
    | cons x xs =>
      simp only [matchesClasses, Bool.and_eq_true] at hm
      rw [List.mem_cons] at hc
      rcases hc with rfl | hc
      · exact hcls k (by simp) c (List.mem_of_elem_eq_true hm.1)
      · exact ih hm.2 (fun k' hk' => hcls k' (by simp [hk'])) c hc

/-- C10: the compiled character classes of `make_dna_re` never contain the
letter `N`, and consequently every window of text matched by the compiled
matcher (on either strand) consists only of the letters `A`, `C`, `G`, `T` —
so `N`-runs written by erasure can never take part in any later match. -/
theorem compiled_matches_are_dna :
    (∀ c ∈ iupacAlphabet, 'N' ∉ ambigToDna c) ∧
    (∀ (re : Str) (go : Bool) (win : Str), IsIupacStr re →
      reMatchWindow re go win = true → ∀ c ∈ win, c ∈ dnaAlphabet) := by
  constructor
  · decide
  · intro re go win hre hm c hc
    unfold reMatchWindow at hm
    rcases Bool.or_eq_true_iff.mp hm with hm | hm
    · refine matchesClasses_chars hm ?_ c hc
      intro k hk d hd
      unfold compileClasses at hk
      rw [List.mem_map] at hk
      obtain ⟨a, ha, rfl⟩ := hk
      exact ambigToDna_subset_dna a (hre a ha) d hd
    · rcases Bool.and_eq_true_iff.mp hm with ⟨-, hm⟩
      refine matchesClasses_chars hm ?_ c hc
      intro k hk d hd
      unfold compileClasses at hk
      rw [List.mem_map] at hk
      obtain ⟨a, ha, rfl⟩ := hk
      exact ambigToDna_subset_dna a (get_rc_isIupac hre a ha) d hd

/-- Witness for `compiled_matches_are_dna`: the pattern `AR` matched against
the window `AG`. -/
theorem compiled_matches_are_dna_witness :
    reMatchWindow ['A', 'R'] false ['A', 'G'] = true ∧
      ∀ c ∈ (['A', 'G'] : Str), c ∈ dnaAlphabet :=
  ⟨by decide,
   compiled_matches_are_dna.2 ['A', 'R'] false ['A', 'G'] (by decide) (by decide)⟩

/-- Shared helper: a window matched by an IUPAC pattern's compiled matcher
contains no `N` (its characters are all primary DNA letters). -/
theorem reMatch_no_N {re : Str} {go : Bool} {win : Str} (hre : IsIupacStr re)
    (hm : reMatchWindow re go win = true) : 'N' ∉ win := by
  intro hN
  have hdna : ∀ c ∈ win, c ∈ dnaAlphabet := by
    unfold reMatchWindow at hm
    rcases Bool.or_eq_true_iff.mp hm with hm | hm
    · refine matchesClasses_chars hm ?_
      intro k hk d hd
      unfold compileClasses at hk
      rw [List.mem_map] at hk
      obtain ⟨a, ha, rfl⟩ := hk
      exact ambigToDna_subset_dna a (hre a ha) d hd
    · rcases Bool.and_eq_true_iff.mp hm with ⟨-, hm⟩
      refine matchesClasses_chars hm ?_
      intro k hk d hd
      unfold compileClasses at hk
      rw [List.mem_map] at hk
      obtain ⟨a, ha, rfl⟩ := hk
      exact ambigToDna_subset_dna a (get_rc_isIupac hre a ha) d hd
  have := hdna 'N' hN
  simp [dnaAlphabet] at this

/-! ### Erasure (`erase_re`) -/

/-- One pass of `ms.sub(ens, s)` for the fixed-width matcher compiled by
`make_dna_re`: scan left to right; wherever a window of width `w` matches,
write `w` letters `N` and continue after the window; otherwise keep the
character and move one position right.  Structural recursion on a fuel
argument (the scan consumes at least one character per step, so fuel
`s.length` always suffices; see `eraseSub`).  The `0 < w` guard covers the
empty pattern, for which `re.sub` substitutes empty strings and leaves the
text unchanged, as the model does. -/
def eraseSubF (w : Nat) (p : Str → Bool) : Nat → Str → Str
  | _, [] => []
  | 0, s => s
  | fuel + 1, c :: rest =>
    if 0 < w ∧ w ≤ rest.length + 1 ∧ p (List.take w (c :: rest)) = true then
      List.replicate w 'N' ++ eraseSubF w p fuel (List.drop w (c :: rest))
    else
      c :: eraseSubF w p fuel rest

/-- The substitution scan with sufficient fuel. -/
def eraseSub (w : Nat) (p : Str → Bool) (s : Str) : Str :=
  eraseSubF w p s.length s

theorem eraseSubF_irrel (w : Nat) (p : Str → Bool) :
    ∀ (f1 : Nat) (s : Str) (f2 : Nat), s.length ≤ f1 → s.length ≤ f2 →
      eraseSubF w p f1 s = eraseSubF w p f2 s := by
  intro f1
  induction f1 with
  | zero =>
    intro s f2 h1 _
    rw [Nat.le_zero, List.length_eq_zero] at h1
    subst h1
    cases f2 <;> rfl
  | succ f1 ih =>
    intro s f2 h1 h2
    cases s with
    | nil => cases f2 <;> rfl
    | cons c rest =>
      cases f2 with
      | zero => simp at h2
      | succ f2 =>
        show (if 0 < w ∧ w ≤ rest.length + 1 ∧ p (List.take w (c :: rest)) = true then
            List.replicate w 'N' ++ eraseSubF w p f1 (List.drop w (c :: rest))
          else c :: eraseSubF w p f1 rest) =
          (if 0 < w ∧ w ≤ rest.length + 1 ∧ p (List.take w (c :: rest)) = true then
            List.replicate w 'N' ++ eraseSubF w p f2 (List.drop w (c :: rest))
          else c :: eraseSubF w p f2 rest)
        simp only [List.length_cons] at h1 h2
        by_cases h : 0 < w ∧ w ≤ rest.length + 1 ∧ p (List.take w (c :: rest)) = true
        · rw [if_pos h, if_pos h,
            ih (List.drop w (c :: rest)) f2
              (by simp only [List.length_drop, List.length_cons]; omega)
              (by simp only [List.length_drop, List.length_cons]; omega)]
        · rw [if_neg h, if_neg h, ih rest f2 (by omega) (by omega)]

theorem eraseSub_cons (w : Nat) (p : Str → Bool) (c : Char) (rest : Str) :
    eraseSub w p (c :: rest) =
      if 0 < w ∧ w ≤ rest.length + 1 ∧ p (List.take w (c :: rest)) = true then
        List.replicate w 'N' ++ eraseSub w p (List.drop w (c :: rest))
      else c :: eraseSub w p rest := by
  show (if 0 < w ∧ w ≤ rest.length + 1 ∧ p (List.take w (c :: rest)) = true then
      List.replicate w 'N' ++ eraseSubF w p rest.length (List.drop w (c :: rest))
    else c :: eraseSubF w p rest.length rest) = _
  by_cases h : 0 < w ∧ w ≤ rest.length + 1 ∧ p (List.take w (c :: rest)) = true
  · rw [if_pos h, if_pos h]
    unfold eraseSub
    rw [eraseSubF_irrel w p rest.length (List.drop w (c :: rest))
      (List.drop w (c :: rest)).length
      (by simp only [List.length_drop, List.length_cons]; omega) (le_refl _)]
  · rw [if_neg h, if_neg h]
    rfl

/-- `a` is `b` with some positions overwritten by `N`. -/
inductive NOver : Str → Str → Prop
  | nil : NOver [] []
  | cons {a b : Char} {as bs : Str} :
      (a = 'N' ∨ a = b) → NOver as bs → NOver (a :: as) (b :: bs)

theorem NOver.rfl : ∀ s : Str, NOver s s := by
  intro s
  induction s with
  | nil => exact NOver.nil
  | cons c cs ih => exact NOver.cons (Or.inr (Eq.refl c)) ih

theorem NOver.length_eq {a b : Str} (h : NOver a b) : a.length = b.length := by
  induction h with
  | nil => simp
  | cons _ _ ih => simp [ih]

theorem NOver.append {a b a' b' : Str} (h : NOver a b) (h' : NOver a' b') :
    NOver (a ++ a') (b ++ b') := by
  induction h with
  | nil => simpa using h'
  | cons hab _ ih => exact NOver.cons hab ih

theorem NOver.take {a b : Str} (h : NOver a b) :
    ∀ k : Nat, NOver (a.take k) (b.take k) := by
  induction h with
  | nil => intro k; simpa using NOver.nil
  | cons hab _ ih =>
    intro k
    cases k with
    | zero => exact NOver.nil
    | succ k => exact NOver.cons hab (ih k)

theorem NOver_replicate : ∀ (k : Nat) (b : Str), b.length = k →
    NOver (List.replicate k 'N') b := by
  intro k
  induction k with
  | zero => intro b hb; rw [List.length_eq_zero] at hb; subst hb; exact NOver.nil
  | succ k ih =>
    intro b hb
    cases b with
    | nil => simp at hb
    | cons x xs =>
      simp only [List.replicate_succ]
      exact NOver.cons (Or.inl (Eq.refl 'N')) (ih xs (by simpa using hb))

theorem NOver_eq_of_no_N {a b : Str} (h : NOver a b) (hn : 'N' ∉ a) : a = b := by
  induction h with
  | nil => rfl
  | cons hab _ ih =>
    rcases hab with hab | hab
    · subst hab; simp at hn
    · subst hab
      rw [ih (fun hm => hn (List.mem_cons_of_mem _ hm))]

theorem eraseSub_nil (w : Nat) (p : Str → Bool) : eraseSub w p [] = [] := rfl

theorem eraseSub_NOver (w : Nat) (p : Str → Bool) :
    ∀ (n : Nat) (s : Str), s.length ≤ n → NOver (eraseSub w p s) s := by
  intro n
  induction n with
  | zero =>
    intro s hs
    rw [Nat.le_zero, List.length_eq_zero] at hs
    subst hs
    rw [eraseSub_nil]
    exact NOver.nil
  | succ n ih =>
    intro s hs
    cases s with
    | nil => rw [eraseSub_nil]; exact NOver.nil
    | cons c rest =>
      rw [eraseSub_cons]
      split
      · next h =>
        have hsplit : c :: rest = List.take w (c :: rest) ++ List.drop w (c :: rest) :=
          (List.take_append_drop w (c :: rest)).symm
        rw [show NOver (List.replicate w 'N' ++ eraseSub w p (List.drop w (c :: rest)))
              (c :: rest) =
            NOver (List.replicate w 'N' ++ eraseSub w p (List.drop w (c :: rest)))
              (List.take w (c :: rest) ++ List.drop w (c :: rest)) by rw [← hsplit]]
        refine NOver.append (NOver_replicate w _ ?_) (ih _ ?_)
        · simp only [List.length_take, List.length_cons]
          omega
        · simp only [List.length_drop, List.length_cons]
          simp only [List.length_cons] at hs
          omega
      · exact NOver.cons (Or.inr (Eq.refl c))
          (ih rest (by simp only [List.length_cons] at hs; omega))

theorem eraseSub_length (w : Nat) (p : Str → Bool) (s : Str) :
    (eraseSub w p s).length = s.length :=
  (eraseSub_NOver w p s.length s (le_refl _)).length_eq

theorem eraseSub_N_cons (w : Nat) (p : Str → Bool)
    (hp : ∀ win, p win = true → 'N' ∉ win) (t : Str) :
    eraseSub w p ('N' :: t) = 'N' :: eraseSub w p t := by
  rw [eraseSub_cons]
  split
  · next h =>
    exfalso
    rcases h with ⟨hw, -, hmatch⟩
    have hmem : 'N' ∈ List.take w ('N' :: t) := by
      cases w with
      | zero => omega
      | succ w => simp [List.take_succ_cons]
    exact hp _ hmatch hmem
  · rfl

theorem eraseSub_replicate (w : Nat) (p : Str → Bool)
    (hp : ∀ win, p win = true → 'N' ∉ win) :
    ∀ (k : Nat) (t : Str),
      eraseSub w p (List.replicate k 'N' ++ t) = List.replicate k 'N' ++ eraseSub w p t := by
  intro k
  induction k with
  | zero => intro t; simp
  | succ k ih =>
    intro t
    rw [List.replicate_succ, List.cons_append, eraseSub_N_cons w p hp, ih]
    rfl

theorem eraseSub_idem (w : Nat) (p : Str → Bool)
    (hp : ∀ win, p win = true → 'N' ∉ win) :
    ∀ (n : Nat) (s : Str), s.length ≤ n →
      eraseSub w p (eraseSub w p s) = eraseSub w p s := by
  intro n
  induction n with
  | zero =>
    intro s hs
    rw [Nat.le_zero, List.length_eq_zero] at hs
    subst hs
    rw [eraseSub_nil, eraseSub_nil]
  | succ n ih =>
    intro s hs
    cases s with
    | nil => rw [eraseSub_nil, eraseSub_nil]
    | cons c rest =>
      by_cases h : 0 < w ∧ w ≤ rest.length + 1 ∧ p (List.take w (c :: rest)) = true
      · have hstep : eraseSub w p (c :: rest) =
            List.replicate w 'N' ++ eraseSub w p (List.drop w (c :: rest)) := by
          rw [eraseSub_cons, if_pos h]
        rw [hstep, eraseSub_replicate w p hp, ih _ ?_]
        simp only [List.length_drop, List.length_cons]
        simp only [List.length_cons] at hs
        omega
      · have hstep : eraseSub w p (c :: rest) = c :: eraseSub w p rest := by
          rw [eraseSub_cons, if_neg h]
        rw [hstep]
        have hlen : (eraseSub w p rest).length = rest.length := eraseSub_length w p rest
        have h2 : ¬ (0 < w ∧ w ≤ (eraseSub w p rest).length + 1 ∧
            p (List.take w (c :: eraseSub w p rest)) = true) := by
          intro h2
          apply h
          refine ⟨h2.1, by omega, ?_⟩
          have hno : NOver (List.take w (c :: eraseSub w p rest)) (List.take w (c :: rest)) :=
            (NOver.cons (Or.inr (Eq.refl c))
              (eraseSub_NOver w p rest.length rest (le_refl _))).take w
          have hnN : 'N' ∉ List.take w (c :: eraseSub w p rest) := hp _ h2.2.2
          rw [← NOver_eq_of_no_N hno hnN]
          exact h2.2.2
        rw [eraseSub_cons, if_neg h2, ih rest (by simp only [List.length_cons] at hs; omega)]

/-- `erase_re` applied to one sequence string: substitute every match of the
both-strand matcher `make_dna_re(re)` by `len(re) * 'N'`. -/
def eraseString (re : Str) (s : Str) : Str :=
  eraseSub re.length (reMatchWindow re false) s

/-- `erase_re(re, pos_seqs, neg_seqs)`: erase every match of `re` (on either
strand) from every positive and negative sequence, in place. -/
def erase_re (re : Str) (pos_seqs neg_seqs : List Str) : List Str × List Str :=
  (pos_seqs.map (eraseString re), neg_seqs.map (eraseString re))

theorem eraseString_idem {re : Str} (hre : IsIupacStr re) (s : Str) :
    eraseString re (eraseString re s) = eraseString re s :=
  eraseSub_idem re.length (reMatchWindow re false)
    (fun _ hm => reMatch_no_N hre hm) s.length s (le_refl _)

/-- C7: erasure is idempotent — applying `erase_re` with the same pattern a
second time to sequence sets already erased with that pattern leaves every
sequence string unchanged. -/
theorem erase_re_idem (re : Str) (pos_seqs neg_seqs : List Str)
    (hre : IsIupacStr re) :
    erase_re re (erase_re re pos_seqs neg_seqs).1 (erase_re re pos_seqs neg_seqs).2 =
      erase_re re pos_seqs neg_seqs := by
  unfold erase_re
  simp only [List.map_map]
  refine Prod.ext ?_ ?_ <;>
    exact List.map_congr_left (fun s _ => eraseString_idem hre s)

/-- Witness for `erase_re_idem` at the pattern `ACG` on concrete sequences. -/
theorem erase_re_idem_witness :
    erase_re ['A', 'C', 'G']
        (erase_re ['A', 'C', 'G'] [['T', 'A', 'C', 'G', 'T']] [['C', 'G', 'T']]).1
        (erase_re ['A', 'C', 'G'] [['T', 'A', 'C', 'G', 'T']] [['C', 'G', 'T']]).2 =
      erase_re ['A', 'C', 'G'] [['T', 'A', 'C', 'G', 'T']] [['C', 'G', 'T']] :=
  erase_re_idem ['A', 'C', 'G'] [['T', 'A', 'C', 'G', 'T']] [['C', 'G', 'T']] (by decide)

/-! ### Enrichment scorer (`getLogPvalue`) -/

/-- The hypergeometric tail primitive is the external collaborator
`hypergeometric.log_getFETprob`; only the element at index 4 of its result is
used, so it is modelled as an abstract function into log-space rationals. -/
abbrev FetFun := Int → Int → Int → Int → Rat

/-- `getLogPvalue(p, P, n, N)`, instrumented: the second component records
whether the tail primitive `log_getFETprob` was invoked.  The source tests
`p * N > n * P` and only then calls `log_getFETprob(N-n, n, P-p, p)[4]`;
otherwise it returns `0` (p-value 1). -/
def getLogPvalueT (fet : FetFun) (p P n N : Int) : Rat × Bool :=
  if n * P < p * N then (fet (N - n) n (P - p) p, true) else (0, false)

/-- `getLogPvalue(p, P, n, N)`: the log p-value alone. -/
def getLogPvalue (fet : FetFun) (p P n N : Int) : Rat :=
  (getLogPvalueT fet p P n N).1

/-- C1: for all valid counts (`0 ≤ p ≤ P`, `0 ≤ n ≤ N`), `getLogPvalue`
returns `0` (log of p-value 1) without invoking the hypergeometric tail
primitive whenever `p·N ≤ n·P`; only when `p·N > n·P` is the tail primitive
`log_getFETprob` invoked (with arguments `N-n, n, P-p, p`) and its value
returned. -/
theorem getLogPvalue_shortCircuit (fet : FetFun) (p P n N : Int)
    (hp0 : 0 ≤ p) (hpP : p ≤ P) (hn0 : 0 ≤ n) (hnN : n ≤ N) :
    (p * N ≤ n * P → getLogPvalueT fet p P n N = (0, false)) ∧
    (n * P < p * N →
      getLogPvalueT fet p P n N = (fet (N - n) n (P - p) p, true)) := by
  constructor
  · intro hle
    unfold getLogPvalueT
    rw [if_neg (by omega)]
  · intro hlt
    unfold getLogPvalueT
    rw [if_pos hlt]

/-- Witness for `getLogPvalue_shortCircuit` at `p=2, P=10, n=3, N=10`
(not enriched: `2·10 ≤ 3·10`, so the result is `(0, false)`). -/
theorem getLogPvalue_shortCircuit_witness :
    getLogPvalueT (fun _ _ _ _ => (5 : Rat)) 2 10 3 10 = (0, false) :=
  (getLogPvalue_shortCircuit (fun _ _ _ _ => (5 : Rat)) 2 10 3 10
    (by decide) (by decide) (by decide) (by decide)).1 (by decide)

/-! ### Word census (`count_seqs_with_words`, `update_seqs_with_words`) -/

/-- The census dictionary: an association list mapping a word to
`[seq_count, last_seq]`, modelling the Python dict (keys unique, update in
place, new keys appended). -/
abbrev CensusMap := List (Str × (Nat × Nat))

/-- Lookup in the census dictionary. -/
def amGet : CensusMap → Str → Option (Nat × Nat)
  | [], _ => none
  | e :: es, k => if e.1 = k then some e.2 else amGet es k

/-- Store a value: replace the existing entry for the key, or append. -/
def amUpd : CensusMap → Str → (Nat × Nat) → CensusMap
  | [], k, v => [(k, v)]
  | e :: es, k, v => if e.1 = k then (k, v) :: es else e :: amUpd es k v

/-- `update_seqs_with_words(seqs_with_words, word, seq_no, given_only)`:
canonicalize the word (alphabetically smaller of word and its reverse
complement unless `given_only`), then increment its sequence count only when
this sequence index is beyond the word's last-seen index (the high-water
mark), or create a fresh `[1, seq_no]` entry. -/
def censusKey (go : Bool) (word : Str) : Str :=
  if go then word else pymin word (get_rc word)

def update_seqs_with_words (go : Bool) (m : CensusMap) (word : Str)
    (seq_no : Nat) : CensusMap :=
  match amGet m (censusKey go word) with
  | some v =>
      if v.2 < seq_no then amUpd m (censusKey go word) (v.1 + 1, seq_no) else m
  | none => amUpd m (censusKey go word) (1, seq_no)

/-- The word `s[i : i+w]`. -/
def wordAt (s : Str) (i w : Nat) : Str := (s.drop i).take w

/-- The source skips words containing a character of `"nN"`. -/
def hasAmbigChar (word : Str) : Bool := word.contains 'n' || word.contains 'N'

/-- The inner loop of `count_seqs_with_words`: all words of width `w` of one
sequence (positions `0 .. slen-w`), skipping ambiguous words. -/
def countWordsOfSeq (go : Bool) (w : Nat) (m : CensusMap) (seq_no : Nat)
    (s : Str) : CensusMap :=
  (List.range (s.length + 1 - w)).foldl
    (fun m i =>
      let word := wordAt s i w
      if hasAmbigChar word then m else update_seqs_with_words go m word seq_no) m

/-- The middle loop: all sequences, numbered from 1 (`seq_no += 1` first). -/
def countSeqsFrom (go : Bool) (w : Nat) : CensusMap → Nat → List Str → CensusMap
  | m, _, [] => m
  | m, seq_no, s :: ss =>
      countSeqsFrom go w (countWordsOfSeq go w m (seq_no + 1) s) (seq_no + 1) ss

/-- `count_seqs_with_words(seqs, minw, maxw, given_only)`: the outer loop over
word widths `minw .. maxw`. -/
def count_seqs_with_words (seqs : List Str) (minw maxw : Nat) (go : Bool) :
    CensusMap :=
  (List.range' minw (maxw + 1 - minw)).foldl
    (fun m w => countSeqsFrom go w m 0 seqs) []

/-- The census invariant: every entry's count is bounded by its last-seen
sequence index, which is bounded by `b`. -/
def CensusInv (m : CensusMap) (b : Nat) : Prop :=
  ∀ e ∈ m, e.2.1 ≤ e.2.2 ∧ e.2.2 ≤ b

theorem amGet_mem {m : CensusMap} {k : Str} {v : Nat × Nat}
    (h : amGet m k = some v) : (k, v) ∈ m := by
  induction m with
  | nil => simp [amGet] at h
  | cons e es ih =>
    rw [amGet] at h
    split at h
    · next he =>
      cases h
      rw [← he]
      simp
    · exact List.mem_cons_of_mem _ (ih h)

theorem mem_amUpd {m : CensusMap} {k : Str} {v : Nat × Nat} :
    ∀ e ∈ amUpd m k v, e = (k, v) ∨ e ∈ m := by
  induction m with
  | nil => intro e he; simp [amUpd] at he; simp [he]
  | cons x xs ih =>
    intro e he
    rw [amUpd] at he
    split at he
    · rcases List.mem_cons.mp he with rfl | he
      · exact Or.inl rfl
      · exact Or.inr (List.mem_cons_of_mem _ he)
    · rcases List.mem_cons.mp he with rfl | he
      · exact Or.inr (List.mem_cons_self _ _)
      · rcases ih e he with h | h
        · exact Or.inl h
        · exact Or.inr (List.mem_cons_of_mem _ h)

theorem update_preserves_inv {go : Bool} {m : CensusMap} {word : Str}
    {seq_no b : Nat} (hinv : CensusInv m b) (h1 : 1 ≤ seq_no)
    (hb : seq_no ≤ b) : CensusInv (update_seqs_with_words go m word seq_no) b := by
  unfold update_seqs_with_words
  generalize censusKey go word = w
  split
  · next v hsome =>
    split
    · next hlt =>
      intro e he
      rcases mem_amUpd e he with rfl | he
      · have hv1 : v.1 ≤ v.2 := (hinv _ (amGet_mem hsome)).1
        refine ⟨?_, ?_⟩
        · show v.1 + 1 ≤ seq_no
          omega
        · show seq_no ≤ b
          exact hb
      · exact hinv e he
    · exact hinv
  · intro e he
    rcases mem_amUpd e he with rfl | he
    · exact ⟨show (1 : Nat) ≤ seq_no from h1, show seq_no ≤ b from hb⟩
    · exact hinv e he

theorem countWordsOfSeq_preserves_inv {go : Bool} {w : Nat} {m : CensusMap}
    {seq_no b : Nat} {s : Str} (hinv : CensusInv m b) (h1 : 1 ≤ seq_no)
    (hb : seq_no ≤ b) : CensusInv (countWordsOfSeq go w m seq_no s) b := by
  unfold countWordsOfSeq
  generalize List.range (s.length + 1 - w) = idxs
  induction idxs generalizing m with
  | nil => exact hinv
  | cons i is ih =>
    rw [List.foldl_cons]
    apply ih
    simp only
    split
    · exact hinv
    · exact update_preserves_inv hinv h1 hb

theorem countSeqsFrom_preserves_inv {go : Bool} {w : Nat} :
    ∀ (ss : List Str) (m : CensusMap) (seq_no b : Nat), CensusInv m b →
      seq_no + ss.length ≤ b → CensusInv (countSeqsFrom go w m seq_no ss) b := by
  intro ss
  induction ss with
  | nil => intro m seq_no b hinv _; exact hinv
  | cons s rest ih =>
    intro m seq_no b hinv hlen
    rw [countSeqsFrom]
    apply ih
    · apply countWordsOfSeq_preserves_inv hinv (by omega)
      simp only [List.length_cons] at hlen
      omega
    · simp only [List.length_cons] at hlen
      omega

/-- C8: for every word counted by the word census, the recorded sequence
count never exceeds the number of sequences in the input set; moreover the
count is bounded by the per-word last-sequence-index high-water mark, which
is itself bounded by the number of sequences. -/
theorem census_count_le_num_seqs (seqs : List Str) (minw maxw : Nat)
    (go : Bool) (word : Str) (c l : Nat)
    (h : amGet (count_seqs_with_words seqs minw maxw go) word = some (c, l)) :
    c ≤ l ∧ l ≤ seqs.length ∧ c ≤ seqs.length := by
  have hinv : CensusInv (count_seqs_with_words seqs minw maxw go) seqs.length := by
    unfold count_seqs_with_words
    generalize List.range' minw (maxw + 1 - minw) = widths
    have hstart : CensusInv ([] : CensusMap) seqs.length := by
      intro e he; simp at he
    generalize ([] : CensusMap) = m0 at hstart
    induction widths generalizing m0 with
    | nil => exact hstart
    | cons w ws ih =>
      rw [List.foldl_cons]
      apply ih
      exact countSeqsFrom_preserves_inv seqs m0 0 seqs.length hstart (by omega)
  have := hinv _ (amGet_mem h)
  simp only at this
  exact ⟨this.1, this.2, le_trans this.1 this.2⟩

/-- Witness for `census_count_le_num_seqs`: two copies of `ACG`, word width 3,
both strands; the canonical word `ACG` is counted twice, bounded by 2. -/
theorem census_count_le_num_seqs_witness :
    amGet (count_seqs_with_words [['A', 'C', 'G'], ['A', 'C', 'G']] 3 3 false)
        ['A', 'C', 'G'] = some (2, 2) ∧ (2 ≤ 2 ∧ 2 ≤ 2 ∧ 2 ≤ 2) :=
  ⟨by decide,
   census_count_le_num_seqs [['A', 'C', 'G'], ['A', 'C', 'G']] 3 3 false
     ['A', 'C', 'G'] 2 2 (by decide)⟩

/-! ### Ambiguity generalizer (`re_generalize`, `_dna_ambig_mappings`) -/

/-- Python 2 `round` (half away from zero) followed by `int()`. -/
def pyRound (x : Rat) : Int :=
  if 0 ≤ x then (x + 1 / 2).floor else -((-x + 1 / 2).floor)

/-- `int(round((c1 + c2) - float(c1*c2)/T))`: inclusion–exclusion estimate of
the number of sequences matching either of two patterns, assuming
independence. -/
def combineEst (c1 c2 : Int) (T : Nat) : Int :=
  pyRound ((c1 : Rat) + (c2 : Rat) - ((c1 : Rat) * (c2 : Rat)) / (T : Rat))

/-- `_dna_ambigs = "RYKMSWBDHVN"`: the fixed dynamic-programming order,
doublets then triples then `N`. -/
def dnaAmbigs : Str := ['R', 'Y', 'K', 'M', 'S', 'W', 'B', 'D', 'H', 'V', 'N']

/-- `_dna_ambig_mappings`: which two previously computed codes an ambiguity
code is combined from.  Characters outside the table map to themselves
(the source dictionary has no such keys). -/
def ambigPair (c : Char) : Char × Char :=
  match c with
  | 'R' => ('A', 'G')
  | 'M' => ('A', 'C')
  | 'W' => ('A', 'T')
  | 'Y' => ('C', 'T')
  | 'S' => ('C', 'G')
  | 'K' => ('G', 'T')
  | 'H' => ('A', 'Y')
  | 'V' => ('A', 'S')
  | 'D' => ('A', 'K')
  | 'B' => ('C', 'K')
  | 'N' => ('A', 'B')
  | c => (c, c)

/-- The `c_counts` table of `re_generalize`: one-character keys to
`(positive, negative)` count pairs. -/
abbrev CMap := Char → Option (Int × Int)

def cmUpd (m : CMap) (k : Char) (v : Int × Int) : CMap :=
  fun x => if x = k then some v else m x

/-- One step of the dynamic-programming loop of `re_generalize`: if both
constituent codes of `ambig` are present in `c_counts`, store the
inclusion–exclusion estimate for `ambig`. -/
def ccStep (Pn Nn : Nat) (m : CMap) (ambig : Char) : CMap :=
  match m (ambigPair ambig).1, m (ambigPair ambig).2 with
  | some v1, some v2 =>
      cmUpd m ambig (combineEst v1.1 v2.1 Pn, combineEst v1.2 v2.2 Nn)
  | _, _ => m

/-- The full dynamic-programming loop (`for ambig in ambigs`). -/
def buildCCounts (Pn Nn : Nat) (init : CMap) : CMap :=
  dnaAmbigs.foldl (ccStep Pn Nn) init

theorem ccStep_ne {Pn Nn : Nat} {m : CMap} {ambig x : Char} (hx : x ≠ ambig) :
    ccStep Pn Nn m ambig x = m x := by
  unfold ccStep
  rcases h1 : m (ambigPair ambig).1 with _ | v1 <;>
    rcases h2 : m (ambigPair ambig).2 with _ | v2 <;>
      simp [cmUpd, hx]

theorem foldl_ccStep_not_mem {Pn Nn : Nat} :
    ∀ (l : Str) (m : CMap) (x : Char), x ∉ l →
      l.foldl (ccStep Pn Nn) m x = m x := by
  intro l
  induction l with
  | nil => intro m x _; rfl
  | cons c cs ih =>
    intro m x hx
    rw [List.foldl_cons]
    rw [ih _ x (fun hm => hx (List.mem_cons_of_mem _ hm))]
    exact ccStep_ne (fun he => hx (he ▸ List.mem_cons_self _ _))

theorem buildCCounts_split {Pn Nn : Nat} {init : CMap} {c c1 c2 : Char}
    {p1 n1 p2 n2 : Int} (front rest : Str)
    (hdec : dnaAmbigs = front ++ c :: rest)
    (hpair : ambigPair c = (c1, c2))
    (hc : c ∉ rest) (h1 : c1 ∉ c :: rest) (h2 : c2 ∉ c :: rest)
    (hv1 : buildCCounts Pn Nn init c1 = some (p1, n1))
    (hv2 : buildCCounts Pn Nn init c2 = some (p2, n2)) :
    buildCCounts Pn Nn init c = some (combineEst p1 p2 Pn, combineEst n1 n2 Nn) := by
  unfold buildCCounts at *
  rw [hdec, List.foldl_append] at hv1 hv2 ⊢
  set mid := front.foldl (ccStep Pn Nn) init with hmid
  rw [foldl_ccStep_not_mem _ mid c1 h1] at hv1
  rw [foldl_ccStep_not_mem _ mid c2 h2] at hv2
  rw [List.foldl_cons]
  rw [foldl_ccStep_not_mem _ _ c hc]
  unfold ccStep
  rw [hpair]
  simp only
  rw [hv1, hv2]
  simp [cmUpd]

/-- C4: (a) the dynamic-programming order `_dna_ambigs` lists the six
two-base codes first, then the four three-base codes, then `N`; (b) whenever
both constituent codes of an ambiguity code carry counts `(p1, n1)` and
`(p2, n2)` in the finished `c_counts` table, the table's entry for the
ambiguity code is exactly
`(round(p1 + p2 - p1·p2/P), round(n1 + n2 - n1·n2/N))`
(the constituents' entries are written strictly before the code's own step
and never overwritten afterwards, so the finished table reflects what the
combination step read). -/
theorem re_generalize_combination :
    (dnaAmbigs = ['R', 'Y', 'K', 'M', 'S', 'W'] ++ ['B', 'D', 'H', 'V'] ++ ['N'] ∧
     (∀ c ∈ (['R', 'Y', 'K', 'M', 'S', 'W'] : Str), (ambigToDna c).length = 2) ∧
     (∀ c ∈ (['B', 'D', 'H', 'V'] : Str), (ambigToDna c).length = 3) ∧
     ambigToDna 'N' = dnaAlphabet) ∧
    ∀ (Pn Nn : Nat) (init : CMap), ∀ c ∈ dnaAmbigs, ∀ p1 n1 p2 n2 : Int,
      buildCCounts Pn Nn init (ambigPair c).1 = some (p1, n1) →
      buildCCounts Pn Nn init (ambigPair c).2 = some (p2, n2) →
      buildCCounts Pn Nn init c =
        some (combineEst p1 p2 Pn, combineEst n1 n2 Nn) := by
  refine ⟨by decide, ?_⟩
  intro Pn Nn init c hc p1 n1 p2 n2 hv1 hv2
  have hc' : c = 'R' ∨ c = 'Y' ∨ c = 'K' ∨ c = 'M' ∨ c = 'S' ∨ c = 'W' ∨
      c = 'B' ∨ c = 'D' ∨ c = 'H' ∨ c = 'V' ∨ c = 'N' := by
    simpa [dnaAmbigs] using hc
  rcases hc' with rfl | rfl | rfl | rfl | rfl | rfl | rfl | rfl | rfl | rfl | rfl
  · exact buildCCounts_split [] ['Y', 'K', 'M', 'S', 'W', 'B', 'D', 'H', 'V', 'N']
      (by decide) (by decide) (by decide) (by decide) (by decide) hv1 hv2
  · exact buildCCounts_split ['R'] ['K', 'M', 'S', 'W', 'B', 'D', 'H', 'V', 'N']
      (by decide) (by decide) (by decide) (by decide) (by decide) hv1 hv2
  · exact buildCCounts_split ['R', 'Y'] ['M', 'S', 'W', 'B', 'D', 'H', 'V', 'N']
      (by decide) (by decide) (by decide) (by decide) (by decide) hv1 hv2
  · exact buildCCounts_split ['R', 'Y', 'K'] ['S', 'W', 'B', 'D', 'H', 'V', 'N']
      (by decide) (by decide) (by decide) (by decide) (by decide) hv1 hv2
  · exact buildCCounts_split ['R', 'Y', 'K', 'M'] ['W', 'B', 'D', 'H', 'V', 'N']
      (by decide) (by decide) (by decide) (by decide) (by decide) hv1 hv2
  · exact buildCCounts_split ['R', 'Y', 'K', 'M', 'S'] ['B', 'D', 'H', 'V', 'N']
      (by decide) (by decide) (by decide) (by decide) (by decide) hv1 hv2
  · exact buildCCounts_split ['R', 'Y', 'K', 'M', 'S', 'W'] ['D', 'H', 'V', 'N']
      (by decide) (by decide) (by decide) (by decide) (by decide) hv1 hv2
  · exact buildCCounts_split ['R', 'Y', 'K', 'M', 'S', 'W', 'B'] ['H', 'V', 'N']
      (by decide) (by decide) (by decide) (by decide) (by decide) hv1 hv2
  · exact buildCCounts_split ['R', 'Y', 'K', 'M', 'S', 'W', 'B', 'D'] ['V', 'N']
      (by decide) (by decide) (by decide) (by decide) (by decide) hv1 hv2
  · exact buildCCounts_split ['R', 'Y', 'K', 'M', 'S', 'W', 'B', 'D', 'H'] ['N']
      (by decide) (by decide) (by decide) (by decide) (by decide) hv1 hv2
  · exact buildCCounts_split ['R', 'Y', 'K', 'M', 'S', 'W', 'B', 'D', 'H', 'V'] []
      (by decide) (by decide) (by decide) (by decide) (by decide) hv1 hv2

/-- A base-letter-only `c_counts` table used as a concrete witness input:
`A ↦ (3, 1)`, `G ↦ (2, 2)`. -/
def ccWitnessInit : CMap := fun c =>
  if c = 'A' then some (3, 1) else if c = 'G' then some (2, 2) else none

/-- Witness for `re_generalize_combination`: combining `A ↦ (3,1)` and
`G ↦ (2,2)` with `P = N = 10` yields `R ↦ (round(5 - 6/10), round(3 - 2/10))
= (4, 3)`. -/
theorem re_generalize_combination_witness :
    buildCCounts 10 10 ccWitnessInit 'R' =
      some (combineEst 3 2 10, combineEst 1 2 10) :=
  re_generalize_combination.2 10 10 ccWitnessInit 'R' (by decide) 3 1 2 2
    (by decide) (by decide)

/-- An entry `[p, P, n, N, log_pvalue]` of an RE p-value dictionary. -/
structure REntry where
  p : Int
  P : Nat
  n : Int
  N : Nat
  lpv : Rat
deriving DecidableEq, Repr

/-- An RE p-value dictionary: association list with unique keys. -/
abbrev Tab := List (Str × REntry)

/-- Dictionary lookup. -/
def tabGet : Tab → Str → Option REntry
  | [], _ => none
  | e :: es, k => if e.1 = k then some e.2 else tabGet es k

/-- `dnaAlphabet.contains`: `_alph.has_key` (the four primary letters). -/
def isBaseChar (c : Char) : Bool := dnaAlphabet.contains c

/-- Key under which `re_generalize` looks up and stores a pattern: the
pattern itself in given-strand mode, else the alphabetically smaller of the
pattern and its reverse complement. -/
def genKey (go : Bool) (w : Str) : Str := if go then w else pymin w (get_rc w)

/-- The initial `c_counts` table for column `i` of `re_generalize`: each
primary letter `k` whose single-letter variant of `re` at column `i` has a
significant record (`log_pvalue < log_add_pthresh`) maps to that record's
`(p, n)` counts. -/
def genInit (tab : Tab) (re : Str) (θ : Rat) (go : Bool) (i : Nat) : CMap :=
  fun k =>
    if isBaseChar k then
      match tabGet tab (genKey go (re.set i k)) with
      | some e => if e.lpv < θ then some (e.p, e.n) else none
      | none => none
    else none

/-- One call of `re_generalize(re, re_pvalues, ...)`, returning the list of
`(index, record)` pairs it stores into `new_re_pvalues`, in loop order
(columns left to right, ambiguity codes in `_dna_ambigs` order).  `none`
models the `KeyError` the source raises when `re` itself has no record. -/
def generalizeEmits (fet : FetFun) (tab : Tab) (re : Str) (θ : Rat)
    (go : Bool) : Option (List (Str × REntry)) :=
  match tabGet tab re with
  | none => none
  | some v =>
    some ((List.range re.length).flatMap (fun i =>
      if isBaseChar (re.getD i ' ') = true then
        dnaAmbigs.filterMap (fun k =>
          match buildCCounts v.P v.N (genInit tab re θ go i) k with
          | some pn =>
            if isBaseChar k then none
            else
              if (re.set i k).head? = some 'N' ∨ (re.set i k).getLast? = some 'N'
              then none
              else some (genKey go (re.set i k),
                ⟨pn.1, v.P, pn.2, v.N,
                 getLogPvalue fet pn.1 (v.P : Int) pn.2 (v.N : Int)⟩)
          | none => none)
      else []))

/-- Number of positions at which two strings differ
(positions beyond the shorter string ignored). -/
def diffCount : Str → Str → Nat
  | a :: as, b :: bs => (if a = b then 0 else 1) + diffCount as bs
  | _, _ => 0

theorem diffCount_self : ∀ l : Str, diffCount l l = 0 := by
  intro l
  induction l with
  | nil => rfl
  | cons x xs ih => simp [diffCount, ih]

theorem diffCount_set : ∀ (l : Str) (i : Nat) (c : Char), i < l.length →
    l.getD i ' ' ≠ c → diffCount l (l.set i c) = 1 := by
  intro l
  induction l with
  | nil => intro i c hi; simp at hi
  | cons x xs ih =>
    intro i c hi hne
    cases i with
    | zero =>
      have hxc : x ≠ c := by simpa using hne
      show (if x = c then 0 else 1) + diffCount xs xs = 1
      rw [if_neg hxc, diffCount_self]
    | succ i =>
      have hi' : i < xs.length := by simpa using hi
      have hne' : xs.getD i ' ' ≠ c := by simpa using hne
      show (if x = x then 0 else 1) + diffCount xs (xs.set i c) = 1
      rw [if_pos rfl, ih i c hi' hne']

theorem dnaAmbigs_subset_iupac : ∀ c ∈ dnaAmbigs, c ∈ iupacAlphabet := by decide

theorem complement_eq_N : ∀ c ∈ iupacAlphabet,
    complementChar c = 'N' → c = 'N' := by decide

theorem set_isIupac {re : Str} {i : Nat} {c : Char} (hre : IsIupacStr re)
    (hc : c ∈ iupacAlphabet) : IsIupacStr (re.set i c) := by
  intro a ha
  rcases List.mem_or_eq_of_mem_set ha with ha | rfl
  · exact hre a ha
  · exact hc

theorem head?_get_rc (s : Str) :
    (get_rc s).head? = s.getLast?.map complementChar := by
  unfold get_rc
  rw [List.head?_reverse, List.getLast?_map]

theorem getLast?_get_rc (s : Str) :
    (get_rc s).getLast? = s.head?.map complementChar := by
  unfold get_rc
  rw [List.getLast?_reverse, List.head?_map]

theorem pymin_eq_or (a b : Str) : pymin a b = a ∨ pymin a b = b := by
  unfold pymin
  split
  · exact Or.inr rfl
  · exact Or.inl rfl

/-- A string over the IUPAC alphabet with no `N` at either boundary keeps
that property in its canonical (strand-minimal) form. -/
theorem genKey_no_boundary_N (go : Bool) {s : Str} (hs : IsIupacStr s)
    (hh : s.head? ≠ some 'N') (hl : s.getLast? ≠ some 'N') :
    (genKey go s).head? ≠ some 'N' ∧ (genKey go s).getLast? ≠ some 'N' := by
  have hrc_h : (get_rc s).head? ≠ some 'N' := by
    rw [head?_get_rc]
    intro hcontra
    obtain ⟨c, hlast, hcN⟩ := Option.map_eq_some'.mp hcontra
    have hcmem : c ∈ iupacAlphabet := hs c (List.mem_of_getLast?_eq_some hlast)
    exact hl (by rw [hlast, complement_eq_N c hcmem hcN])
  have hrc_l : (get_rc s).getLast? ≠ some 'N' := by
    rw [getLast?_get_rc]
    intro hcontra
    obtain ⟨c, hhead, hcN⟩ := Option.map_eq_some'.mp hcontra
    have hcmem : c ∈ iupacAlphabet := hs c (List.mem_of_mem_head? hhead)
    exact hh (by rw [hhead, complement_eq_N c hcmem hcN])
  unfold genKey
  split
  · exact ⟨hh, hl⟩
  · rcases pymin_eq_or s (get_rc s) with hmin | hmin <;> rw [hmin]
    · exact ⟨hh, hl⟩
    · exact ⟨hrc_h, hrc_l⟩

/-- Counterexample input for C6: the source pattern `AAAC` and a table in
which `AAAC` and `GAAC` are significant. -/
def c6Tab : Tab :=
  [(['A', 'A', 'A', 'C'], ⟨5, 10, 1, 10, -1⟩),
   (['G', 'A', 'A', 'C'], ⟨4, 10, 1, 10, -1⟩)]

/-- Counterexample to C6 as stated: generalizing `AAAC` at column 0 to `R`
produces the pattern `RAAC`, but the record is stored under the canonical key
`GTTY = min(RAAC, rc(RAAC))`, which differs from the source pattern `AAAC`
at all four positions — not at exactly one. -/
theorem re_generalize_stored_key_cex :
    (generalizeEmits (fun _ _ _ _ => 0) c6Tab ['A', 'A', 'A', 'C'] 0 false).map
        (List.map Prod.fst) = some [['G', 'T', 'T', 'Y']] ∧
    diffCount ['A', 'A', 'A', 'C'] ['G', 'T', 'T', 'Y'] = 4 := by decide

/-- C6 (amended): every record stored by one generalization step of
`re_generalize` is keyed by the canonical form (strand-minimal key; the
pattern itself in given-strand mode) of a pattern that differs from the
source pattern at exactly one position, that position holding an ambiguous
(multi-base) letter in place of a primary base; and the stored key itself has
no `N` as its first or last letter. -/
theorem re_generalize_stored_key_shape (fet : FetFun) (tab : Tab) (re : Str)
    (θ : Rat) (go : Bool) (emits : List (Str × REntry)) (hre : IsIupacStr re)
    (h : generalizeEmits fet tab re θ go = some emits) :
    ∀ kv ∈ emits,
      kv.1.head? ≠ some 'N' ∧ kv.1.getLast? ≠ some 'N' ∧
      ∃ i c, i < re.length ∧ c ∈ dnaAmbigs ∧ isBaseChar c = false ∧
        isBaseChar (re.getD i ' ') = true ∧
        kv.1 = genKey go (re.set i c) ∧ diffCount re (re.set i c) = 1 := by
  intro kv hkv
  unfold generalizeEmits at h
  rcases htab : tabGet tab re with _ | v
  · rw [htab] at h; simp at h
  · rw [htab] at h
    simp only [Option.some_inj] at h
    subst h
    rw [List.mem_flatMap] at hkv
    obtain ⟨i, hi, hkv⟩ := hkv
    rw [List.mem_range] at hi
    split at hkv
    · next hbase =>
      rw [List.mem_filterMap] at hkv
      obtain ⟨k, hk, hsome⟩ := hkv
      rcases hcc : buildCCounts v.P v.N (genInit tab re θ go i) k with _ | pn
      · rw [hcc] at hsome; simp at hsome
      · rw [hcc] at hsome
        simp only at hsome
        split at hsome
        · simp at hsome
        · next hkbase =>
          split at hsome
          · simp at hsome
          · next hbdry =>
            have hkv_eq : kv = (genKey go (re.set i k),
                ⟨pn.1, v.P, pn.2, v.N,
                 getLogPvalue fet pn.1 (v.P : Int) pn.2 (v.N : Int)⟩) := by
              injection hsome with h1
              exact h1.symm
            subst hkv_eq
            push_neg at hbdry
            have hkiupac : k ∈ iupacAlphabet := dnaAmbigs_subset_iupac k hk
            have hsetiupac : IsIupacStr (re.set i k) := set_isIupac hre hkiupac
            have hbd := genKey_no_boundary_N go hsetiupac hbdry.1 hbdry.2
            refine ⟨hbd.1, hbd.2, i, k, hi, hk, ?_, hbase, rfl, ?_⟩
            · show isBaseChar k = false
              unfold isBaseChar
              rw [Bool.not_eq_true] at hkbase
              exact hkbase
            · apply diffCount_set re i k hi
              intro he
              have hkb : isBaseChar k = true := he ▸ hbase
              unfold isBaseChar at hkb
              exact hkbase hkb
    · simp at hkv

/-- Witness for `re_generalize_stored_key_shape` on the counterexample
input: the single stored key `GTTY` is, up to strand, a one-position
ambiguous generalization of `AAAC` with no boundary `N`. -/
theorem re_generalize_stored_key_shape_witness :
    (['G', 'T', 'T', 'Y'] : Str).head? ≠ some 'N' ∧
      (['G', 'T', 'T', 'Y'] : Str).getLast? ≠ some 'N' ∧
      ∃ i c, i < (['A', 'A', 'A', 'C'] : Str).length ∧ c ∈ dnaAmbigs ∧
        isBaseChar c = false ∧
        isBaseChar ((['A', 'A', 'A', 'C'] : Str).getD i ' ') = true ∧
        (['G', 'T', 'T', 'Y'] : Str) =
          genKey false ((['A', 'A', 'A', 'C'] : Str).set i c) ∧
        diffCount ['A', 'A', 'A', 'C'] ((['A', 'A', 'A', 'C'] : Str).set i c) = 1 := by
  have h := re_generalize_stored_key_shape (fun _ _ _ _ => 0) c6Tab
    ['A', 'A', 'A', 'C'] 0 false
    [(['G', 'T', 'T', 'Y'],
      ⟨7, 10, 2, 10, getLogPvalue (fun _ _ _ _ => 0) 7 10 2 10⟩)]
    (by decide) (by with_unfolding_all decide)
  exact h (['G', 'T', 'T', 'Y'],
      ⟨7, 10, 2, 10, getLogPvalue (fun _ _ _ _ => 0) 7 10 2 10⟩) (by decide)

/-! ### Greedy refiner (`re_refine`) -/

/-- The state threaded through one `re_refine` round: the shared
`re_pvalues` dictionary, the `improved_re_pvalues` frontier being built, the
`done_re_list`, and (instrumentation) the list of patterns for which
`compute_exact_re_enrichment` was actually invoked. -/
structure RefState where
  pvals : Tab
  improved : Tab
  done : List Str
  computed : List Str
deriving DecidableEq, Repr

/-- Python dict assignment `t[k] = v`:
replace an existing entry or append a new one. -/
def tabPut : Tab → Str → REntry → Tab
  | [], k, v => [(k, v)]
  | e :: es, k, v => if e.1 = k then (k, v) :: es else e :: tabPut es k v

/-- One substitution trial in `re_refine` (exact variant, `hamming_dist=-1`):
`new_re` is the parent `re` with one letter replaced; its index is
`min(new_re, get_rc(new_re))`.  Only if the index is *not* yet in
`re_pvalues` is the enrichment computed (`compute_exact_re_enrichment`,
modelled by the oracle `enrich` since the sequence sets are fixed for the
whole round), logged, stored into `re_pvalues`, and added to the improved
frontier exactly when strictly better than the parent's record.  The parent
lookup `re_pvalues[re]` would raise `KeyError` when absent; the model then
leaves the frontier unchanged (the theorems assume the candidate has a
record, as every caller guarantees). -/
def refineStep (enrich : Str → REntry) (re : Str) (st : RefState)
    (new_re : Str) : RefState :=
  match tabGet st.pvals (pymin new_re (get_rc new_re)) with
  | some _ => st
  | none =>
    { pvals := tabPut st.pvals (pymin new_re (get_rc new_re)) (enrich new_re)
      improved :=
        match tabGet st.pvals re with
        | some pe =>
            if (enrich new_re).lpv < pe.lpv then
              tabPut st.improved (pymin new_re (get_rc new_re)) (enrich new_re)
            else st.improved
        | none => st.improved
      done := st.done
      computed := st.computed ++ [new_re] }

/-- The substitutions tried for one candidate, in loop order: every position
left to right, every allowed letter other than the current letter. -/
def substitutions (allowed : Str) (re : Str) : List Str :=
  (List.range re.length).flatMap (fun i =>
    allowed.filterMap (fun l =>
      if l = re.getD i ' ' then none else some (re.set i l)))

/-- Refinement of one candidate: skipped if previously refined
(`done_re_list`), otherwise marked done and all its substitutions tried. -/
def refineCand (enrich : Str → REntry) (allowed : Str) (st : RefState)
    (re : Str) : RefState :=
  if re ∈ st.done then st
  else
    (substitutions allowed re).foldl (refineStep enrich re)
      { st with done := re :: st.done }

/-- `re_refine(re_pvalues, candidate_pvalues, done_re_list, allowed_letters,
pos_seqs, neg_seqs)` for the exact variant: refine every candidate. -/
def re_refine (enrich : Str → REntry) (pvals : Tab) (candidates : List Str)
    (done : List Str) (allowed : Str) : RefState :=
  candidates.foldl (refineCand enrich allowed) ⟨pvals, [], done, []⟩

/-- `all_letters = _dna_alphabet + _dna_ambigs`, the allowed substitution
letters passed by `refine_from_re`. -/
def allLetters : Str :=
  ['A', 'C', 'G', 'T', 'R', 'Y', 'K', 'M', 'S', 'W', 'B', 'D', 'H', 'V', 'N']

theorem tabGet_tabPut (t : Tab) (k : Str) (v : REntry) (x : Str) :
    tabGet (tabPut t k v) x = if x = k then some v else tabGet t x := by
  induction t with
  | nil =>
    by_cases hx : x = k
    · subst hx
      simp [tabPut, tabGet]
    · have hkx : ¬ k = x := fun h => hx h.symm
      simp [tabPut, tabGet, hx, hkx]
  | cons e es ih =>
    by_cases he : e.1 = k
    · by_cases hx : x = k
      · subst hx
        simp [tabPut, tabGet, he]
      · have hkx : ¬ k = x := fun h => hx h.symm
        have hex : ¬ e.1 = x := fun h => hx (h ▸ he)
        simp [tabPut, tabGet, he, hx, hkx, hex]
    · by_cases hex : e.1 = x
      · have hxk : ¬ x = k := fun h => he (hex.trans h)
        simp [tabPut, tabGet, he, hex, hxk]
      · simp [tabPut, tabGet, he, hex, ih]

theorem refineStep_pvals_pres {enrich : Str → REntry} {re : Str}
    {st : RefState} {s : Str} {x : Str} {u : REntry}
    (h : tabGet st.pvals x = some u) :
    tabGet (refineStep enrich re st s).pvals x = some u := by
  unfold refineStep
  rcases hidx : tabGet st.pvals (pymin s (get_rc s)) with _ | pv
  · simp only
    rw [tabGet_tabPut]
    split
    · next hx => rw [hx] at h; rw [h] at hidx; cases hidx
    · exact h
  · exact h

theorem refineSteps_pvals_pres {enrich : Str → REntry} {re : Str} :
    ∀ (l : List Str) (st : RefState) (x : Str) (u : REntry),
      tabGet st.pvals x = some u →
      tabGet ((l.foldl (refineStep enrich re) st)).pvals x = some u := by
  intro l
  induction l with
  | nil => intro st x u h; exact h
  | cons s rest ih =>
    intro st x u h
    rw [List.foldl_cons]
    exact ih _ x u (refineStep_pvals_pres h)

theorem refineCand_pvals_pres {enrich : Str → REntry} {allowed : Str}
    {st : RefState} {re : Str} {x : Str} {u : REntry}
    (h : tabGet st.pvals x = some u) :
    tabGet (refineCand enrich allowed st re).pvals x = some u := by
  unfold refineCand
  split
  · exact h
  · exact refineSteps_pvals_pres _ _ x u h

theorem refineSteps_sound {enrich : Str → REntry} {re : Str} {pe : REntry} :
    ∀ (l : List Str) (st : RefState), tabGet st.pvals re = some pe →
      ∀ (idx : Str) (v : REntry),
        tabGet ((l.foldl (refineStep enrich re) st)).improved idx = some v →
        tabGet st.improved idx = some v ∨
        ∃ sub ∈ l, idx = pymin sub (get_rc sub) ∧ v = enrich sub ∧
          v.lpv < pe.lpv := by
  intro l
  induction l with
  | nil => intro st _ idx v h; exact Or.inl h
  | cons s rest ih =>
    intro st hre idx v h
    rw [List.foldl_cons] at h
    rcases ih _ (refineStep_pvals_pres hre) idx v h with h1 | ⟨sub, hsub, h1⟩
    · unfold refineStep at h1
      rcases hidx : tabGet st.pvals (pymin s (get_rc s)) with _ | pv
      · rw [hidx] at h1
        simp only at h1
        rw [hre] at h1
        split at h1
        · next pe2 hpe2 =>
          injection hpe2 with hpe2
          subst hpe2
          split at h1
          · next hbetter =>
            rw [tabGet_tabPut] at h1
            split at h1
            · next hx =>
              refine Or.inr ⟨s, List.mem_cons_self _ _, hx, ?_, ?_⟩
              · injection h1 with h1
                exact h1.symm
              · injection h1 with h1
                exact h1 ▸ hbetter
            · exact Or.inl h1
          · exact Or.inl h1
        · next hpe2 => exact Option.noConfusion hpe2
      · rw [hidx] at h1
        exact Or.inl h1
    · exact Or.inr ⟨sub, List.mem_cons_of_mem _ hsub, h1⟩

theorem refine_fold_sound {enrich : Str → REntry} {allowed : Str} :
    ∀ (cands : List Str) (st : RefState),
      (∀ re ∈ cands, tabGet st.pvals re ≠ none) →
      ∀ (idx : Str) (v : REntry),
        tabGet ((cands.foldl (refineCand enrich allowed) st)).improved idx = some v →
        tabGet st.improved idx = some v ∨
        ∃ re ∈ cands, ∃ pe, tabGet st.pvals re = some pe ∧
          ∃ sub ∈ substitutions allowed re, idx = pymin sub (get_rc sub) ∧
            v = enrich sub ∧ v.lpv < pe.lpv := by
  intro cands
  induction cands with
  | nil => intro st _ idx v h; exact Or.inl h
  | cons c cs ih =>
    intro st hpres idx v h
    rw [List.foldl_cons] at h
    have hc : tabGet st.pvals c ≠ none := hpres c (List.mem_cons_self _ _)
    rcases hc' : tabGet st.pvals c with _ | pe
    · exact absurd hc' hc
    · have hpres' : ∀ re ∈ cs, tabGet (refineCand enrich allowed st c).pvals re ≠ none := by
        intro re hre
        rcases hr : tabGet st.pvals re with _ | u
        · exact absurd hr (hpres re (List.mem_cons_of_mem _ hre))
        · rw [refineCand_pvals_pres hr]
          exact Option.noConfusion
      rcases ih _ hpres' idx v h with h1 | ⟨re, hmem, pe', hpe', rest⟩
      · unfold refineCand at h1
        split at h1
        · exact Or.inl h1
        · rcases refineSteps_sound (substitutions allowed c)
              { st with done := c :: st.done }
              (show tabGet ({ st with done := c :: st.done } : RefState).pvals c = some pe
                from hc')
              idx v h1 with h2 | ⟨sub, hsub, h2⟩
          · exact Or.inl h2
          · exact Or.inr ⟨c, List.mem_cons_self _ _, pe, hc', sub, hsub, h2⟩
      · rcases hr : tabGet st.pvals re with _ | u
        · exact absurd hr (hpres re (List.mem_cons_of_mem _ hmem))
        · have : tabGet (refineCand enrich allowed st c).pvals re = some u :=
            refineCand_pvals_pres hr
          rw [this] at hpe'
          injection hpe' with hpe'
          subst hpe'
          exact Or.inr ⟨re, List.mem_cons_of_mem _ hmem, u, hr, rest⟩

/-- Counterexample inputs for C5: parent `AA` with log p-value `0`; the
substitution `CA` (position 0, letter `C`) already has a table record with
log p-value `-5`, strictly better than the parent's. -/
def c5Tab : Tab :=
  [(['A', 'A'], ⟨2, 10, 2, 10, 0⟩), (['C', 'A'], ⟨9, 10, 0, 10, -5⟩)]

/-- A constant enrichment oracle whose records are never better than the
parent's, so nothing freshly computed is kept. -/
def c5Enrich : Str → REntry := fun _ => ⟨1, 10, 1, 10, 1⟩

/-- Counterexample to C5 as stated: refining candidate `AA`, the substitution
`CA` (strictly better record than the parent, `-5 < 0`) is neither recomputed
(`CA` is absent from the computation log) nor kept in the improved frontier
(which ends empty), because its canonical index is already present in
`re_pvalues` — so not every substitution has its record computed, and a
strictly improving substitution is not kept. -/
theorem re_refine_skips_known_cex :
    (re_refine c5Enrich c5Tab [['A', 'A']] [] allLetters).improved = [] ∧
    ['C', 'A'] ∉ (re_refine c5Enrich c5Tab [['A', 'A']] [] allLetters).computed ∧
    ['C', 'A'] ∈ substitutions allLetters ['A', 'A'] ∧
    tabGet c5Tab ['C', 'A'] = some ⟨9, 10, 0, 10, -5⟩ ∧
    tabGet c5Tab ['A', 'A'] = some ⟨2, 10, 2, 10, 0⟩ ∧
    ((-5 : Rat) < 0) := by decide

/-- C5 (amended): in each exact-refinement round, a substitution is tried
against the table first: if its canonical index is already in `re_pvalues`
the step does nothing (no recomputation, never added to the frontier, even
when its recorded p-value beats the parent's); if the index is fresh, its
enrichment record is computed, stored, and kept in the improved frontier
exactly when its log p-value is strictly smaller than its parent's.
Consequently every entry of the improved frontier produced by `re_refine` is
the freshly computed record of a single-position substitution of one of the
round's candidates, with log p-value strictly smaller than that parent's. -/
theorem re_refine_improved_characterization :
    (∀ (enrich : Str → REntry) (st : RefState) (re sub : Str) (pe : REntry),
      tabGet st.pvals re = some pe →
      (tabGet st.pvals (pymin sub (get_rc sub)) ≠ none →
        refineStep enrich re st sub = st) ∧
      (tabGet st.pvals (pymin sub (get_rc sub)) = none →
        (refineStep enrich re st sub).computed = st.computed ++ [sub] ∧
        tabGet (refineStep enrich re st sub).pvals (pymin sub (get_rc sub)) =
          some (enrich sub) ∧
        (refineStep enrich re st sub).improved =
          (if (enrich sub).lpv < pe.lpv then
            tabPut st.improved (pymin sub (get_rc sub)) (enrich sub)
          else st.improved))) ∧
    (∀ (enrich : Str → REntry) (pvals : Tab) (candidates : List Str)
       (done : List Str) (allowed : Str) (idx : Str) (v : REntry),
      (∀ re ∈ candidates, tabGet pvals re ≠ none) →
      tabGet (re_refine enrich pvals candidates done allowed).improved idx = some v →
      ∃ re ∈ candidates, ∃ pe, tabGet pvals re = some pe ∧
        ∃ sub ∈ substitutions allowed re, idx = pymin sub (get_rc sub) ∧
          v = enrich sub ∧ v.lpv < pe.lpv) := by
  constructor
  · intro enrich st re sub pe hre
    constructor
    · intro hknown
      unfold refineStep
      rcases hidx : tabGet st.pvals (pymin sub (get_rc sub)) with _ | pv
      · exact absurd hidx hknown
      · rfl
    · intro hfresh
      unfold refineStep
      rw [hfresh]
      refine ⟨rfl, ?_, ?_⟩
      · rw [tabGet_tabPut, if_pos rfl]
      · rw [hre]
  · intro enrich pvals candidates done allowed idx v hpres h
    unfold re_refine at h
    rcases refine_fold_sound candidates _ hpres idx v h with h1 | h1
    · simp [tabGet] at h1
    · exact h1

/-- Witness for `re_refine_improved_characterization`: with a single
candidate `AA` (log p-value `0`) and an oracle returning records with log
p-value `-2`, the improved frontier contains `CA`, and the theorem exhibits
it as a strictly improving fresh substitution of the candidate. -/
theorem re_refine_improved_characterization_witness :
    ∃ re ∈ [['A', 'A']], ∃ pe,
      tabGet [(['A', 'A'], (⟨2, 10, 2, 10, 0⟩ : REntry))] re = some pe ∧
      ∃ sub ∈ substitutions allLetters re,
        (['C', 'A'] : Str) = pymin sub (get_rc sub) ∧
        (⟨3, 10, 1, 10, -2⟩ : REntry) = (fun _ => (⟨3, 10, 1, 10, -2⟩ : REntry)) sub ∧
        (⟨3, 10, 1, 10, -2⟩ : REntry).lpv < pe.lpv :=
  re_refine_improved_characterization.2 (fun _ => ⟨3, 10, 1, 10, -2⟩)
    [(['A', 'A'], ⟨2, 10, 2, 10, 0⟩)] [['A', 'A']] [] allLetters
    ['C', 'A'] ⟨3, 10, 1, 10, -2⟩ (by decide) (by decide)

/-! ### Discovery loop (`main`) and the core pipeline it drives -/

/-- The loop stop causes reported by `main` (`stop_cause`). -/
inductive StopCause
  | evalue
  | count
  | time
deriving DecidableEq, Repr

deriving instance DecidableEq for Except

/-- What the find/erase loop consumes from one `find_print` call:
the best word and its log E-value. -/
structure FindResult where
  word : Str
  logEvalue : Rat
deriving DecidableEq, Repr

/-- The find/erase loop of `main`: find the best motif; stop with cause
`evalue` when its log E-value exceeds `log(ethresh)`; otherwise count it and
stop with cause `count` when the configured maximum is reached (note: before
any erasure); otherwise erase it (the significance re-check mirrors the
source) and iterate.  `fuel` only bounds the recursion; the source loop is
unbounded and the timeout path (`stop_cause = time`) is not modelled. -/
def dremeLoop (find : List Str × List Str → FindResult) (logEthresh : Rat)
    (max_motifs : Option Nat) :
    Nat → List Str × List Str → Nat →
      Option (StopCause × (List Str × List Str) × Nat)
  | 0, _, _ => none
  | fuel + 1, seqs, nmotifs =>
    if logEthresh < (find seqs).logEvalue then some (.evalue, seqs, nmotifs)
    else if max_motifs = some (nmotifs + 1) then
      some (.count, seqs, nmotifs + 1)
    else
      dremeLoop find logEthresh max_motifs fuel
        (if (find seqs).logEvalue ≤ logEthresh then
          erase_re (find seqs).word seqs.1 seqs.2
        else seqs)
        (nmotifs + 1)

/-- Counterexample to C2 as stated: with `max_motifs = 1` and a first motif
(`ACGT`, log E-value `-1 ≤ 0`) that is significant and has matches in both
sequence sets, the loop stops with cause `count` *without erasing*: the final
sequence sets equal the initial ones, although erasing `ACGT` would have
changed them. -/
theorem max_motifs_stops_before_erasure_cex :
    dremeLoop (fun _ => ⟨['A', 'C', 'G', 'T'], -1⟩) 0 (some 1) 5
        ([['A', 'A', 'C', 'G', 'T', 'A']], [['A', 'C', 'G', 'T', 'T', 'T']]) 0 =
      some (.count,
        ([['A', 'A', 'C', 'G', 'T', 'A']], [['A', 'C', 'G', 'T', 'T', 'T']]), 1) ∧
    erase_re ['A', 'C', 'G', 'T'] [['A', 'A', 'C', 'G', 'T', 'A']]
        [['A', 'C', 'G', 'T', 'T', 'T']] ≠
      ([['A', 'A', 'C', 'G', 'T', 'A']], [['A', 'C', 'G', 'T', 'T', 'T']]) := by
  decide

/-- C2 (amended): when `max_motifs` is configured as 1 and the first
discovered motif is significant (log E-value ≤ log ethresh), the discovery
loop terminates with stop cause `count` and motif count 1 *without* erasing
the motif's matches — the count check precedes the erasure step, so both
sequence sets are returned unchanged. -/
theorem max_motifs_one_stops_without_erasure
    (find : List Str × List Str → FindResult) (logEthresh : Rat)
    (pos neg : List Str) (fuel : Nat)
    (hsig : (find (pos, neg)).logEvalue ≤ logEthresh) (hf : 0 < fuel) :
    dremeLoop find logEthresh (some 1) fuel (pos, neg) 0 =
      some (.count, (pos, neg), 1) := by
  cases fuel with
  | zero => omega
  | succ f =>
    rw [dremeLoop, if_neg (not_lt.mpr hsig), if_pos rfl]

/-- Witness for `max_motifs_one_stops_without_erasure` at a concrete
significant first motif. -/
theorem max_motifs_one_stops_without_erasure_witness :
    dremeLoop (fun _ => ⟨['A', 'C', 'G', 'T'], -1⟩) 0 (some 1) 1
        ([['A', 'A', 'C', 'G', 'T', 'A']], [['A', 'C', 'G', 'T', 'T', 'T']]) 0 =
      some (.count,
        ([['A', 'A', 'C', 'G', 'T', 'A']], [['A', 'C', 'G', 'T', 'T', 'T']]), 1) :=
  max_motifs_one_stops_without_erasure (fun _ => ⟨['A', 'C', 'G', 'T'], -1⟩) 0
    [['A', 'A', 'C', 'G', 'T', 'A']] [['A', 'C', 'G', 'T', 'T', 'T']] 1
    (by decide) (by decide)

/-- `apply_fisher_test`: one record per word of the positive census; a word
absent from the negative census counts 0 negatives. -/
def apply_fisher_test (fet : FetFun) (posCounts negCounts : CensusMap)
    (Pn Nn : Nat) : Tab :=
  posCounts.map (fun e =>
    ((e.1 : Str),
     (⟨(e.2.1 : Int), Pn,
       (match amGet negCounts e.1 with
        | some v => (v.1 : Int)
        | none => 0), Nn,
       getLogPvalue fet (e.2.1 : Int) (Pn : Int)
         (match amGet negCounts e.1 with
          | some v => (v.1 : Int)
          | none => 0) (Nn : Int)⟩ : REntry)))

/-- The sort comparator of `sorted_re_pvalue_keys`:
`cmp(pvalue_x, pvalue_y) or cmp(x, y)`. -/
def entryLe (a b : Str × REntry) : Bool :=
  a.2.lpv < b.2.lpv || (a.2.lpv = b.2.lpv && !strLt b.1 a.1)

def insortEntry (a : Str × REntry) : Tab → Tab
  | [] => [a]
  | b :: bs => if entryLe a b then a :: b :: bs else b :: insortEntry a bs

/-- A stable sort of the dictionary entries under `entryLe`
(models `keys.sort(cmp)`). -/
def sortEntries : Tab → Tab
  | [] => []
  | a :: as => insortEntry a (sortEntries as)

/-- `sorted_re_pvalue_keys(re_pvalues)`: keys by increasing
`(log_pvalue, key)`. -/
def sorted_re_pvalue_keys (t : Tab) : List Str := (sortEntries t).map Prod.fst

/-- `re_generalize` proper: fold the emitted `(index, record)` stores into
`new_re_pvalues`.  A missing record for `re` itself would be a `KeyError` in
the source; the callers only pass keys of `old`, and the model then leaves
the output table unchanged. -/
def re_generalize_tab (fet : FetFun) (θ : Rat) (go : Bool) (old : Tab)
    (newt : Tab) (re : Str) : Tab :=
  match generalizeEmits fet old re θ go with
  | none => newt
  | some emits => emits.foldl (fun t kv => tabPut t kv.1 kv.2) newt

/-- One round of `re_generalize_all`: generalize the top `ngen` sorted REs of
`old` that are long enough for `n_ambigs` ambiguous characters. -/
def generalizeRound (fet : FetFun) (θ : Rat) (go : Bool) (ngen : Nat)
    (n_ambigs : Nat) (old : Tab) : Tab :=
  ((sorted_re_pvalue_keys old).take ngen).foldl
    (fun newt re =>
      if n_ambigs > re.length then newt
      else re_generalize_tab fet θ go old newt re) []

/-- The `for n_ambigs in range(1, maxw+1)` loop of `re_generalize_all`, with
its early break when the working dictionary is empty; `final` accumulates
every round's output. -/
def generalizeRounds (fet : FetFun) (θ : Rat) (go : Bool) (ngen : Nat) :
    Nat → Nat → Tab → Tab → Tab
  | 0, _, _, final => final
  | k + 1, n_ambigs, old, final =>
    if old.length = 0 then final
    else
      generalizeRounds fet θ go ngen k (n_ambigs + 1)
        (generalizeRound fet θ go ngen n_ambigs old)
        ((generalizeRound fet θ go ngen n_ambigs old).foldl
          (fun f kv => tabPut f kv.1 kv.2) final)

/-- `ms.search(s)`: the compiled matcher matches at some position. -/
def reSearch (re : Str) (go : Bool) (s : Str) : Bool :=
  (List.range (s.length + 1 - re.length)).any
    (fun i => reMatchWindow re go (wordAt s i re.length))

/-- `count_seqs_matching_iupac_re`. -/
def count_seqs_matching_iupac_re (re : Str) (go : Bool)
    (pos neg : List Str) : Int × Int :=
  ((pos.countP (fun s => reSearch re go s) : Int),
   (neg.countP (fun s => reSearch re go s) : Int))

/-- `compute_exact_re_enrichment`. -/
def compute_exact_re_enrichment (fet : FetFun) (re : Str) (go : Bool)
    (pos neg : List Str) : REntry :=
  ⟨(count_seqs_matching_iupac_re re go pos neg).1, pos.length,
   (count_seqs_matching_iupac_re re go pos neg).2, neg.length,
   getLogPvalue fet (count_seqs_matching_iupac_re re go pos neg).1
     (pos.length : Int) (count_seqs_matching_iupac_re re go pos neg).2
     (neg.length : Int)⟩

/-- `compute_top_res`: replace the top `ngen` entries by exact records. -/
def compute_top_res (fet : FetFun) (go : Bool) (ngen : Nat) (t : Tab)
    (pos neg : List Str) : Tab :=
  ((sorted_re_pvalue_keys t).take ngen).foldl
    (fun acc re => tabPut acc re (compute_exact_re_enrichment fet re go pos neg)) t

/-- `re_generalize_all`: run the generalization rounds, re-verify the top
`ngen` candidates exactly, then add back the initial word records. -/
def re_generalize_all (fet : FetFun) (word_pvalues : Tab) (ngen : Nat)
    (θ : Rat) (maxw : Nat) (go : Bool) (pos neg : List Str) : Tab :=
  word_pvalues.foldl (fun f kv => tabPut f kv.1 kv.2)
    (compute_top_res fet go ngen
      (generalizeRounds fet θ go ngen maxw 1 word_pvalues []) pos neg)

/-- `re_find_cores`: census both sequence sets, Fisher-test every positive
word, then generalize. -/
def re_find_cores (fet : FetFun) (pos neg : List Str) (ngen : Nat)
    (minw maxw : Nat) (θ : Rat) (go : Bool) : Tab :=
  re_generalize_all fet
    (apply_fisher_test fet (count_seqs_with_words pos minw maxw go)
      (count_seqs_with_words neg minw maxw go) pos.length neg.length)
    ngen θ maxw go pos neg

/-- Python tuple comparison on `(log_pvalue, re)` pairs. -/
def pairLt (a b : Rat × Str) : Bool :=
  a.1 < b.1 || (a.1 = b.1 && strLt a.2 b.2)

/-- `min(candidates)` over `(re_pvalues[re][4], re)` for keys within the
width range; `none` models the empty-candidate branch of `output_best_re`. -/
def selectBest (t : Tab) (minw maxw : Nat) : Option (Rat × Str) :=
  (t.filterMap (fun kv =>
    if minw ≤ kv.1.length ∧ kv.1.length ≤ maxw then some (kv.2.lpv, kv.1)
    else none)).foldl
    (fun acc x =>
      match acc with
      | none => some x
      | some m => if pairLt x m then some x else some m) none

/-- The sentinel `1e300` returned by `output_best_re` when no candidate lies
in the width range. -/
def bigSentinel : Rat := (10 : Rat) ^ (300 : Nat)

/-- `find_print` restricted to what the find/erase loop consumes: the best
word and its log E-value (`log_pvalue + log(len(re_pvalues))`).  `logFn`
models the external `math.log` on table sizes; `extendFn` abstracts
`re_extend_cores`, which runs only when `maxw > maxk`. -/
def find_print (fet : FetFun) (logFn : Nat → Rat) (extendFn : Tab → Tab)
    (ngen : Nat) (minw maxw mink maxk : Nat) (θ : Rat) (go : Bool)
    (seqs : List Str × List Str) : FindResult :=
  match selectBest
      (if maxw > maxk then
        extendFn (re_find_cores fet seqs.1 seqs.2 ngen mink maxk θ go)
      else re_find_cores fet seqs.1 seqs.2 ngen mink maxk θ go) minw maxw with
  | none => ⟨[], bigSentinel⟩
  | some (lpv, key) =>
      ⟨key, lpv + logFn
        (if maxw > maxk then
          extendFn (re_find_cores fet seqs.1 seqs.2 ngen mink maxk θ go)
        else re_find_cores fet seqs.1 seqs.2 ngen mink maxk θ go).length⟩

/-- The pre-loop width validation of `main` — the only input validation that
precedes the find/erase loop.  `-1` means "not given". -/
def resolveWidths (minw maxw mink maxk : Int) :
    Except String (Int × Int × Int × Int) :=
  if minw > maxw ∧ maxw ≠ -1 then .error "minw must not be greater than maxw"
  else
    let maxw1 := if minw > maxw then minw else maxw
    let minw1 := if minw = -1 then mink else minw
    let maxw2 := if maxw1 = -1 then maxk else maxw1
    if mink > maxk then .error "mink must not be greater than maxk"
    else .ok (minw1, maxw2, min maxw2 mink, min maxw2 maxk)

/-- `main` from configuration validation through the find/erase loop, for
already-parsed sequence sets (FASTA reading, shuffling and all output are
external); returns the stop cause, the final sequence sets and the number of
motifs found. -/
def mainRun (fet : FetFun) (logFn : Nat → Rat) (extendFn : Tab → Tab)
    (minw maxw mink maxk : Int) (ngen : Nat) (θ : Rat) (logEthresh : Rat)
    (max_motifs : Option Nat) (go : Bool) (fuel : Nat) (pos neg : List Str) :
    Except String (StopCause × (List Str × List Str) × Nat) :=
  match resolveWidths minw maxw mink maxk with
  | .error e => .error e
  | .ok (minw1, maxw1, mink1, maxk1) =>
    match dremeLoop
        (find_print fet logFn extendFn ngen minw1.toNat maxw1.toNat mink1.toNat
          maxk1.toNat θ go)
        logEthresh max_motifs fuel (pos, neg) 0 with
    | some r => .ok r
    | none => .error "fuel exhausted"

theorem census_nil (minw maxw : Nat) (go : Bool) :
    count_seqs_with_words [] minw maxw go = [] := by
  unfold count_seqs_with_words
  generalize List.range' minw (maxw + 1 - minw) = widths
  induction widths with
  | nil => rfl
  | cons w ws ih => exact ih

theorem generalizeRounds_nil (fet : FetFun) (θ : Rat) (go : Bool) (ngen : Nat) :
    ∀ (k na : Nat) (final : Tab),
      generalizeRounds fet θ go ngen k na [] final = final := by
  intro k na final
  cases k with
  | zero => rfl
  | succ k =>
    rw [generalizeRounds]
    simp

theorem re_find_cores_no_pos (fet : FetFun) (neg : List Str) (ngen : Nat)
    (minw maxw : Nat) (θ : Rat) (go : Bool) :
    re_find_cores fet [] neg ngen minw maxw θ go = [] := by
  unfold re_find_cores re_generalize_all
  rw [census_nil]
  show ([] : Tab).foldl _ (compute_top_res fet go ngen
    (generalizeRounds fet θ go ngen maxw 1 [] []) [] neg) = []
  rw [generalizeRounds_nil, List.foldl_nil]
  unfold compute_top_res
  rw [show sorted_re_pvalue_keys ([] : Tab) = [] from rfl, List.take_nil,
    List.foldl_nil]

/-- Counterexample to C9 as stated: a degenerate input (zero positive
sequences) is *not* rejected before the discovery loop — `main`'s only
pre-loop validation concerns widths, so the run enters the loop and returns
normally with stop cause `evalue` and 0 motifs. -/
theorem degenerate_input_not_rejected_cex :
    mainRun (fun _ _ _ _ => 0) (fun _ => 0) id (-1) (-1) 3 8 100 (-4) (-3)
        none false 2 [] [['A', 'C', 'G', 'T']] =
      .ok (.evalue, ([], [['A', 'C', 'G', 'T']]), 0) := by
  with_unfolding_all decide

/-- C9 (amended): degenerate input is not rejected before the discovery
loop.  The only pre-loop validation is of the width configuration; with the
default width settings (`minw = maxw = -1`) and any consistent core widths, a
run with an empty positive sequence set enters the loop, finds no candidate
words (the sentinel E-value `1e300` exceeds any threshold), and stops with
cause `evalue` having found 0 motifs, leaving the sequence sets untouched. -/
theorem degenerate_input_enters_loop (fet : FetFun) (logFn : Nat → Rat)
    (extendFn : Tab → Tab) (mink maxk : Int) (ngen : Nat) (θ : Rat)
    (logEthresh : Rat) (maxm : Option Nat) (go : Bool) (fuel : Nat)
    (neg : List Str) (hk : mink ≤ maxk) (hf : 0 < fuel)
    (hE : logEthresh < bigSentinel) :
    mainRun fet logFn extendFn (-1) (-1) mink maxk ngen θ logEthresh maxm go
        fuel [] neg = .ok (.evalue, ([], neg), 0) := by
  have hres : resolveWidths (-1) (-1) mink maxk =
      .ok (mink, maxk, min maxk mink, min maxk maxk) := by
    have e3 : ¬ (mink > maxk) := by omega
    simp [resolveWidths, e3]
  have hfind : find_print fet logFn extendFn ngen mink.toNat maxk.toNat
      (min maxk mink).toNat (min maxk maxk).toNat θ go ([], neg) =
      ⟨[], bigSentinel⟩ := by
    unfold find_print
    rw [if_neg (by omega : ¬ maxk.toNat > (min maxk maxk).toNat)]
    rw [re_find_cores_no_pos]
    rfl
  have hloop : dremeLoop
      (find_print fet logFn extendFn ngen mink.toNat maxk.toNat
        (min maxk mink).toNat (min maxk maxk).toNat θ go)
      logEthresh maxm fuel ([], neg) 0 =
      some (.evalue, ([], neg), 0) := by
    cases fuel with
    | zero => omega
    | succ f =>
      rw [dremeLoop, hfind]
      rw [if_pos (show logEthresh <
        (⟨[], bigSentinel⟩ : FindResult).logEvalue from hE)]
  unfold mainRun
  rw [hres]
  show (match dremeLoop
      (find_print fet logFn extendFn ngen mink.toNat maxk.toNat
        (min maxk mink).toNat (min maxk maxk).toNat θ go)
      logEthresh maxm fuel ([], neg) 0 with
    | some r => Except.ok r
    | none => Except.error "fuel exhausted") = _
  rw [hloop]

/-- Witness for `degenerate_input_enters_loop` at concrete defaults. -/
theorem degenerate_input_enters_loop_witness :
    mainRun (fun _ _ _ _ => 0) (fun _ => 0) id (-1) (-1) 3 8 100 (-4) (-3)
        none false 1 [] [['A', 'C', 'G', 'T'], ['T', 'T', 'T', 'T']] =
      .ok (.evalue, ([], [['A', 'C', 'G', 'T'], ['T', 'T', 'T', 'T']]), 0) :=
  degenerate_input_enters_loop (fun _ _ _ _ => 0) (fun _ => 0) id 3 8 100 (-4)
    (-3) none false 1 [['A', 'C', 'G', 'T'], ['T', 'T', 'T', 'T']]
    (by decide) (by decide) (by with_unfolding_all decide)

end Dreme
